import Mathlib

/-!
Shallow embedding of the alembic-tree migration graph engine
(src/src/alembicTree.ts and the edge filter of src/src/graphView.ts).

Strings are modelled as `List Char`.  The JavaScript regular expressions of
the source are modelled character by character with the backtracking
semantics of ECMAScript regexes; each definition carries a comment naming
the source construct it embeds.
-/

namespace AlembicTree

/-- Character class of the ECMAScript `\s` (WhiteSpace plus LineTerminator);
this is also the set of characters removed by `String.prototype.trim`. -/
def isWs (c : Char) : Bool :=
  c.toNat = 0x20 || c.toNat = 0x09 || c.toNat = 0x0a || c.toNat = 0x0b ||
  c.toNat = 0x0c || c.toNat = 0x0d || c.toNat = 0xa0 || c.toNat = 0x1680 ||
  (0x2000 <= c.toNat && c.toNat <= 0x200a) || c.toNat = 0x2028 ||
  c.toNat = 0x2029 || c.toNat = 0x202f || c.toNat = 0x205f ||
  c.toNat = 0x3000 || c.toNat = 0xfeff

/-- ECMAScript LineTerminator characters: the characters `.` does not match
and the positions where a multiline `$` matches. -/
def isLineTerm (c : Char) : Bool :=
  c.toNat = 0x0a || c.toNat = 0x0d || c.toNat = 0x2028 || c.toNat = 0x2029

/-- Character class `['"]` of the source regexes. -/
def isQuote (c : Char) : Bool := c = '\'' || c = '"'

/-- Character class `[0-9a-zA-Z_]` of the bare-identifier fallback. -/
def isWordChar (c : Char) : Bool :=
  ('0' ≤ c && c ≤ '9') || ('a' ≤ c && c ≤ 'z') || ('A' ≤ c && c ≤ 'Z') || c = '_'

/-- Removal of a maximal whitespace suffix, the right half of
`String.prototype.trim`. -/
def trimRight : List Char → List Char
  | [] => []
  | c :: rest =>
    match trimRight rest with
    | [] => if isWs c then [] else [c]
    | r => c :: r

/-- JavaScript `String.prototype.trim`: drop whitespace from both ends. -/
def trimL (cs : List Char) : List Char := trimRight (cs.dropWhile isWs)

/-- Matching of `#.*$` at the current position, `$` without the `m` flag:
a hash such that `.*` reaches the absolute end of the string, which requires
every remaining character to be a non-LineTerminator. -/
def hashToEnd : List Char → Bool
  | '#' :: t => t.all (fun c => !(isLineTerm c))
  | _ => false

/-- Matching of `\s+#.*$` starting at the current position (any split of the
whitespace run is allowed by backtracking, so the hash may follow one or
more whitespace characters). -/
def wsHash : List Char → Bool
  | [] => false
  | c :: rest => isWs c && (hashToEnd rest || wsHash rest)

/-- Replacement `s.replace(/\s+#.*$/g, "")`: the leftmost match extends to
the end of the string, so everything from the leftmost match start is
removed. -/
def stripCore : List Char → List Char
  | [] => []
  | c :: rest => if wsHash (c :: rest) then [] else c :: stripCore rest

/-- Source `stripInlineComment` (alembicTree.ts line 24):
`s.replace(/\s+#.*$/g, "").trim()`. -/
def stripInlineComment (cs : List Char) : List Char := trimL (stripCore cs)

/-- Scan of `.replace(/\s+/g, " ")`: the flag records whether the previous
character was whitespace, so that a maximal whitespace run emits exactly one
space at its first character. -/
def collapseAux : Bool → List Char → List Char
  | _, [] => []
  | inRun, c :: rest =>
    if isWs c then
      if inRun then collapseAux true rest else ' ' :: collapseAux true rest
    else c :: collapseAux false rest

/-- Replacement `.replace(/\s+/g, " ")`: every maximal whitespace run is
collapsed to a single space. -/
def collapseWs (cs : List Char) : List Char := collapseAux false cs

/-- Source `normalizeRhs` (alembicTree.ts line 29):
`stripInlineComment(rhs).replace(/\s+/g, " ").trim()`. -/
def normalizeRhs (cs : List Char) : List Char :=
  trimL (collapseWs (stripInlineComment cs))

/-- Matching of the anchored regex `^['"]([^'"]+)['"]$`: a quote, a nonempty
run of non-quote characters (the capture), a quote, end. -/
def singleQuoted (cs : List Char) : Option (List Char) :=
  match cs with
  | [] => none
  | c :: rest =>
    match rest.getLast? with
    | none => none
    | some z =>
      let mid := rest.dropLast
      if isQuote c && isQuote z && !mid.isEmpty &&
          mid.all (fun d => !(isQuote d)) then
        some mid
      else none

/-- Replacement `.replace(/^['"]|['"]$/g, "")`: one leading quote character
is removed if present, then one trailing quote character of the remainder. -/
def stripEdgeQuotes (cs : List Char) : List Char :=
  let cs1 := match cs with
    | c :: rest => if isQuote c then rest else cs
    | [] => []
  match cs1.getLast? with
  | some z => if isQuote z then cs1.dropLast else cs1
  | none => cs1

/-- Source `parseRevision` (alembicTree.ts line 63). -/
def parseRevision (raw : List Char) : List Char :=
  let normalized := normalizeRhs raw
  match singleQuoted normalized with
  | some mid => mid
  | none => trimL (stripEdgeQuotes normalized)

/-- Scan of `matchAll(/['"]([^'"]+)['"]/g)`.  The state is `none` while
looking for an opening quote and `some acc` inside a candidate token.  A
closing quote after a nonempty run emits the token and the scan continues
after it; a quote directly after the opening quote means the attempt at the
opening quote failed and the engine retries with this quote as the new
opening one; a run that reaches the end of the string yields no further
match. -/
def tokensAux : Option (List Char) → List Char → List (List Char)
  | _, [] => []
  | none, c :: rest =>
    if isQuote c then tokensAux (some []) rest else tokensAux none rest
  | some acc, c :: rest =>
    if isQuote c then
      if acc.isEmpty then tokensAux (some []) rest
      else acc :: tokensAux none rest
    else tokensAux (some (acc ++ [c])) rest

/-- All captures of `matchAll(/['"]([^'"]+)['"]/g)` in order of
appearance. -/
def extractTokens (cs : List Char) : List (List Char) := tokensAux none cs

/-- Test of `/^(None|null)$/i`: case-insensitive comparison against the two
literals. -/
def isNoneNull (cs : List Char) : Bool :=
  cs.map Char.toLower = "none".data || cs.map Char.toLower = "null".data

/-- Test of `/^[0-9a-zA-Z_]+$/`. -/
def isBareToken (cs : List Char) : Bool :=
  !cs.isEmpty && cs.all isWordChar

/-- Source `asArrayDownRevision` (alembicTree.ts line 33); the argument is
`string | null` and the guard `if (!raw)` also catches the empty string. -/
def asArrayDownRevision (raw : Option (List Char)) : List (List Char) :=
  match raw with
  | none => []
  | some cs =>
    if cs.isEmpty then []
    else
      let normalized := normalizeRhs cs
      if isNoneNull normalized then []
      else
        match singleQuoted normalized with
        | some mid => [mid]
        | none =>
          let tokens := extractTokens normalized
          if !tokens.isEmpty then tokens
          else if isBareToken normalized then [normalized] else []

/-!
Binding-line matcher for parseMigrationFile.  The source regex is (with the
m flag) `^\s*revision\s*(?::\s*[^=]+)?\s*=\s*(.+)\s*$`, and the same shape
with `down_revision`.  ECMAScript semantics: `\s` may cross line
terminators, `.` may not, `^` matches at the string start and directly
after any LineTerminator, `$` matches at the string end and directly before
any LineTerminator.
-/

/-- Matching of a multiline `\s*$`: a whitespace run followed by the end of
the string or a LineTerminator. -/
def matchWsEnd : List Char → Bool
  | [] => true
  | c :: rest =>
    if isLineTerm c then true else if isWs c then matchWsEnd rest else false

/-- Backtracking over the greedy capture of `(.+)\s*$`: candidate capture
lengths are tried longest first. -/
def tryCapture : Nat → List Char → Option (List Char)
  | 0, _ => none
  | Nat.succ k, cs =>
    if matchWsEnd (cs.drop (Nat.succ k)) then some (cs.take (Nat.succ k))
    else tryCapture k cs

/-- Matching of `(.+)\s*$`: the capture is the longest nonempty prefix of
non-LineTerminator characters after which `\s*$` still matches. -/
def matchDotPlus (cs : List Char) : Option (List Char) :=
  tryCapture (cs.takeWhile (fun c => !(isLineTerm c))).length cs

/-- Backtracking over the greedy `\s*` in front of the capture of
`\s*(.+)\s*$`: the longest whitespace prefix is tried first, shrinking on
failure. -/
def tryWsPre : Nat → List Char → Option (List Char)
  | 0, cs => matchDotPlus cs
  | Nat.succ k, cs =>
    match matchDotPlus (cs.drop (Nat.succ k)) with
    | some r => some r
    | none => tryWsPre k cs

/-- Matching of `\s*(.+)\s*$`, returning the capture. -/
def matchRhs (cs : List Char) : Option (List Char) :=
  tryWsPre (cs.takeWhile isWs).length cs

/-- Matching of `\s*(?::\s*[^=]+)?\s*=\s*(.+)\s*$` from the position right
after the binding name.  When the optional type annotation is present it
consumes the colon and the run up to the first equals sign, which must be
nonempty; backtracking cannot choose a later equals sign because neither
`[^=]` nor `\s` nor the literal can cross one. -/
def afterName (cs : List Char) : Option (List Char) :=
  match cs.dropWhile isWs with
  | '=' :: rest => matchRhs rest
  | ':' :: rest =>
    match rest.dropWhile (fun c => c != '=') with
    | _ :: rest2 =>
      if (rest.takeWhile (fun c => c != '=')).isEmpty then none
      else matchRhs rest2
    | [] => none
  | _ => none

/-- Test that the second list is an initial segment of the first, written
out to keep every definition kernel-computable. -/
def startsWithL : List Char → List Char → Bool
  | _, [] => true
  | [], _ :: _ => false
  | a :: as, b :: bs => a == b && startsWithL as bs

/-- Matching of the whole binding pattern at one candidate start
position. -/
def tryMatchAt (nm cs : List Char) : Option (List Char) :=
  let cs1 := cs.dropWhile isWs
  if startsWithL cs1 nm then afterName (cs1.drop nm.length) else none

/-- Scan for the leftmost match of the anchored multiline pattern: the flag
records whether the current position is a candidate start (the string start
or the position directly after a LineTerminator). -/
def findFrom (nm : List Char) : Bool → List Char → Option (List Char)
  | atStart, [] => if atStart then tryMatchAt nm [] else none
  | atStart, c :: rest =>
    match (if atStart then tryMatchAt nm (c :: rest) else none) with
    | some r => some r
    | none => findFrom nm (isLineTerm c) rest

/-- Leftmost match of `content.match(pattern)` for the binding pattern of
the given name, returning the capture group. -/
def findBinding (nm cs : List Char) : Option (List Char) :=
  findFrom nm true cs

/-- Suffix test via reversal. -/
def endsWithL (l s : List Char) : Bool := startsWithL l.reverse s.reverse

/-- Node `path.extname` restricted to a base name: the extension starts at
the last dot provided that dot is not the first character; otherwise it is
empty. -/
def extOf (b : List Char) : List Char :=
  let afterRev := b.reverse.takeWhile (fun c => c != '.')
  if afterRev.length + 1 < b.length then '.' :: afterRev.reverse else []

/-- Node `path.basename(filePath, path.extname(filePath))` as used at
alembicTree.ts line 85: the component after the last separator, with its
extension removed.  Trailing-separator handling of Node is omitted because
the engine only ever passes file paths. -/
def baseNameNoExt (fp : List Char) : List Char :=
  let b := (fp.reverse.takeWhile (fun c => c != '/')).reverse
  let e := extOf b
  if !e.isEmpty && endsWithL b e && e.length < b.length then
    b.take (b.length - e.length)
  else b

/-- Source MigrationNode record (alembicTree.ts line 6). -/
structure MigrationNode where
  revision : List Char
  downRevisions : List (List Char)
  filePath : List Char
  label : List Char
deriving DecidableEq

/-- Source parseMigrationFile (alembicTree.ts line 74). -/
def parseMigrationFile (content filePath : List Char) : Option MigrationNode :=
  match findBinding ("revision".data) content with
  | none => none
  | some revRhs =>
    let downRhs := findBinding ("down_revision".data) content
    let revision := parseRevision revRhs
    some
      { revision := revision
      , downRevisions := asArrayDownRevision downRhs
      , filePath := filePath
      , label := revision ++ (" (".data) ++ baseNameNoExt filePath ++ (")".data) }

/-- Revision identifiers are strings. -/
abbrev RevId := List Char

/-- Association-list model of a JavaScript Map with string keys: setting a
present key updates the value in place and keeps the key position, setting
a fresh key appends; iteration follows the list order, which is the Map
insertion order. -/
abbrev JsMap (α : Type) := List (RevId × α)

/-- JavaScript `Map.prototype.has`. -/
def mapHas {α : Type} (m : JsMap α) (k : RevId) : Bool :=
  m.any (fun p => p.1 == k)

/-- JavaScript `Map.prototype.set`. -/
def mapSet {α : Type} (m : JsMap α) (k : RevId) (v : α) : JsMap α :=
  if mapHas m k then m.map (fun p => if p.1 == k then (k, v) else p)
  else m ++ [(k, v)]

/-- JavaScript `Map.prototype.get`. -/
def mapGet {α : Type} (m : JsMap α) (k : RevId) : Option α :=
  (m.find? (fun p => p.1 == k)).map (fun p => p.2)

/-- JavaScript `Map.prototype.values` in iteration order. -/
def mapValues {α : Type} (m : JsMap α) : List α := m.map (fun p => p.2)

/-- JavaScript `Map.prototype.keys` in iteration order. -/
def mapKeys {α : Type} (m : JsMap α) : List RevId := m.map (fun p => p.1)

/-- Scan behind `uniq`: elements already seen are skipped. -/
def uniqAux (seen : List RevId) : List RevId → List RevId
  | [] => []
  | x :: xs =>
    if seen.contains x then uniqAux seen xs
    else x :: uniqAux (x :: seen) xs

/-- Source uniq (alembicTree.ts line 20): `[...new Set(arr)]` keeps the
first occurrence of each element, in order. -/
def uniq (l : List RevId) : List RevId := uniqAux [] l

/-- JavaScript default string comparison used by `Array.prototype.sort`:
lexicographic by code unit, which agrees with code points for the
identifiers at hand. -/
def jsLt : RevId → RevId → Bool
  | [], [] => false
  | [], _ :: _ => true
  | _ :: _, [] => false
  | a :: as, b :: bs =>
    if a.toNat < b.toNat then true
    else if b.toNat < a.toNat then false
    else jsLt as bs

/-- Weak order induced by jsLt. -/
def jsLe (a b : RevId) : Prop := jsLt b a = false

instance : DecidableRel jsLe := fun _ _ => inferInstanceAs (Decidable (_ = false))

/-- Model of `.sort()` on a duplicate-free string array: insertion sort for
the lexicographic order.  On duplicate-free input every comparison sort
returns the same list, so the choice of algorithm is immaterial. -/
def sortRevs (l : List RevId) : List RevId := List.insertionSort jsLe l

/-- Graph state built by rebuildGraph (alembicTree.ts lines 121 to 127). -/
structure Graph where
  nodesByRevision : JsMap MigrationNode
  childrenByParent : JsMap (List RevId)
  bases : List RevId
  heads : List RevId
  missingParents : List RevId
deriving DecidableEq

/-- Index pass of rebuildGraph (alembicTree.ts line 211): later nodes
overwrite earlier ones with the same revision. -/
def indexNodes (parsed : List MigrationNode) : JsMap MigrationNode :=
  parsed.foldl (fun m n => mapSet m n.revision n) []

/-- Inner step of the adjacency pass (alembicTree.ts lines 215 to 221):
append the child to the list of one parent. -/
def addChild (m : JsMap (List RevId)) (parent child : RevId) :
    JsMap (List RevId) :=
  mapSet m parent ((mapGet m parent).getD [] ++ [child])

/-- Adjacency pass over every parsed node, including nodes later
overwritten in the index pass. -/
def rawChildren (parsed : List MigrationNode) : JsMap (List RevId) :=
  parsed.foldl
    (fun m n => n.downRevisions.foldl (fun m2 p => addChild m2 p n.revision) m)
    []

/-- Deduplicate-and-sort pass over the adjacency lists
(alembicTree.ts lines 223 to 225). -/
def sortChildren (m : JsMap (List RevId)) : JsMap (List RevId) :=
  m.map (fun p => (p.1, sortRevs (uniq p.2)))

/-- Identifiers referenced as a parent by a surviving node
(alembicTree.ts lines 228 to 238); the JavaScript Set is modelled as a list
queried through membership. -/
def referencedAsParent (nodes : JsMap MigrationNode) : List RevId :=
  (mapValues nodes).flatMap (fun n => n.downRevisions)

/-- Pure core of rebuildGraph from the parsed node list on
(alembicTree.ts lines 211 to 253). -/
def buildGraph (parsed : List MigrationNode) : Graph :=
  let nodes := indexNodes parsed
  let referenced := referencedAsParent nodes
  { nodesByRevision := nodes
  , childrenByParent := sortChildren (rawChildren parsed)
  , bases := sortRevs (((mapValues nodes).filter
      (fun n => n.downRevisions.isEmpty)).map (fun n => n.revision))
  , heads := sortRevs ((mapKeys nodes).filter (fun r => !(referenced.contains r)))
  , missingParents :=
      sortRevs (uniq (referenced.filter (fun p => !(mapHas nodes p)))) }

/-- Result record of getGraphData (alembicTree.ts line 13). -/
structure GraphDataResult where
  nodes : JsMap MigrationNode
  edges : List (RevId × RevId)
  bases : List RevId
  heads : List RevId
deriving DecidableEq

/-- Source getGraphData (alembicTree.ts lines 255 to 270): one edge per
(parent, node) pair of every stored node, with no existence check on the
parent identifier. -/
def getGraphData (g : Graph) : GraphDataResult :=
  { nodes := g.nodesByRevision
  , edges := (mapValues g.nodesByRevision).flatMap
      (fun n => n.downRevisions.map (fun p => (p, n.revision)))
  , bases := g.bases
  , heads := g.heads }

/-- Edge filter of the graph webview (graphView.ts lines 78 to 81): an edge
with an endpoint missing from the node map is skipped before rendering. -/
def webviewEdges (d : GraphDataResult) : List (RevId × RevId) :=
  d.edges.filter (fun e => mapHas d.nodes e.1 && mapHas d.nodes e.2)

/-!
Rule-pipeline presentations of the parent interpretation, used to compare
`asArrayDownRevision` with the graduated rule list described by the
specification.
-/

/-- Application of an ordered rule list, first match wins, empty list as
the final fallback. -/
def applyRules :
    List (List Char → Option (List (List Char))) → List Char →
      List (List Char)
  | [], _ => []
  | r :: rs, s =>
    match r s with
    | some v => v
    | none => applyRules rs s

/-- Rule 1: textual None or null, case-insensitively, yields no parents. -/
def ruleNoneNull (s : List Char) : Option (List (List Char)) :=
  if isNoneNull s then some [] else none

/-- Rule 2: a single quoted string literal spanning the whole value yields
the inner text. -/
def ruleSingleQuoted (s : List Char) : Option (List (List Char)) :=
  (singleQuoted s).map (fun t => [t])

/-- Rule 3 as implemented by the source: one or more quoted tokens anywhere
in the value, in order of appearance, not deduplicated. -/
def ruleQuotedTokens (s : List Char) : Option (List (List Char)) :=
  match extractTokens s with
  | [] => none
  | t :: ts => some (t :: ts)

/-- Rule 4: a bare alphanumeric or underscore token. -/
def ruleBareToken (s : List Char) : Option (List (List Char)) :=
  if isBareToken s then some [s] else none

/-- Modelled from the claim wording of C5, not from the source: rule 3
restricted to values that are parenthesized or bracketed sequence
literals. -/
def claimSeqTokens (s : List Char) : Option (List (List Char)) :=
  let bracketed : Bool :=
    match s, s.getLast? with
    | '(' :: _, some ')' => true
    | '[' :: _, some ']' => true
    | _, _ => false
  if bracketed then ruleQuotedTokens s else none

/-- Parent interpretation exactly as the claim of C5 words it: the four
rules first match wins, with rule 3 requiring a sequence literal. -/
def claimParentRules (raw : Option (List Char)) : List (List Char) :=
  match raw with
  | none => []
  | some cs =>
    if cs.isEmpty then []
    else
      applyRules [ruleNoneNull, ruleSingleQuoted, claimSeqTokens, ruleBareToken]
        (normalizeRhs cs)

/-- Parent interpretation as the amended claim words it: identical to the
claim pipeline except that rule 3 accepts quoted tokens anywhere in the
value. -/
def amendedParentRules (raw : Option (List Char)) : List (List Char) :=
  match raw with
  | none => []
  | some cs =>
    if cs.isEmpty then []
    else
      applyRules [ruleNoneNull, ruleSingleQuoted, ruleQuotedTokens, ruleBareToken]
        (normalizeRhs cs)

/-!
Normal-form predicates for the idempotence analysis of normalizeRhs.
-/

/-- Absence of LineTerminator characters. -/
def noLT (cs : List Char) : Bool := cs.all (fun c => !(isLineTerm c))

/-- The first character, when present, is not whitespace. -/
def headNotWs : List Char → Bool
  | [] => true
  | c :: _ => !(isWs c)

/-- The last character, when present, is not whitespace. -/
def lastNotWs : List Char → Bool
  | [] => true
  | [c] => !(isWs c)
  | _ :: c :: rest => lastNotWs (c :: rest)

/-- The first character, when present, is not a hash. -/
def headNotHash : List Char → Bool
  | '#' :: _ => false
  | _ => true

/-- The first character, when present, is whitespace. -/
def headIsWs : List Char → Bool
  | [] => false
  | c :: _ => isWs c

/-- No two adjacent whitespace characters. -/
def noTwoWs : List Char → Bool
  | a :: b :: rest => !(isWs a && isWs b) && noTwoWs (b :: rest)
  | _ => true

/-- Every whitespace character is a plain space. -/
def wsOnlySpace (cs : List Char) : Bool :=
  cs.all (fun c => !(isWs c) || c == ' ')

/-- No whitespace character directly followed by a hash. -/
def noWsThenHash : List Char → Bool
  | a :: b :: rest => !(isWs a && b == '#') && noWsThenHash (b :: rest)
  | _ => true

/-- No suffix position at which the comment pattern matches. -/
def wsHashFree : List Char → Bool
  | [] => true
  | c :: rest => !(wsHash (c :: rest)) && wsHashFree rest

/-- Shape of the output of normalizeRhs on LineTerminator-free input:
trimmed at both ends, single plain spaces as the only whitespace, and no
whitespace directly in front of a hash. -/
def normalForm (cs : List Char) : Bool :=
  headNotWs cs && lastNotWs cs && noTwoWs cs && wsOnlySpace cs &&
    noWsThenHash cs

/-!
Order lemmas for the lexicographic comparison and the sort model.
-/

theorem char_eq_of_toNat_eq {a b : Char} (h : a.toNat = b.toNat) : a = b :=
  Char.ext (UInt32.ext h)

theorem jsLt_asymm : ∀ a b : RevId, jsLt a b = true → jsLt b a = false := by
  intro a
  induction a with
  | nil =>
    intro b h
    cases b with
    | nil => simp [jsLt] at h
    | cons y ys => simp [jsLt]
  | cons x xs ih =>
    intro b h
    cases b with
    | nil => simp [jsLt] at h
    | cons y ys =>
      simp only [jsLt] at h ⊢
      by_cases hxy : x.toNat < y.toNat
      · simp [hxy, Nat.lt_asymm hxy]
      · by_cases hyx : y.toNat < x.toNat
        · simp [hxy, hyx] at h
        · simp only [hxy, hyx, if_false] at h ⊢
          exact ih ys h

theorem jsLt_eq_of_not : ∀ a b : RevId, jsLt a b = false → jsLt b a = false →
    a = b := by
  intro a
  induction a with
  | nil =>
    intro b h1 _
    cases b with
    | nil => rfl
    | cons y ys => simp [jsLt] at h1
  | cons x xs ih =>
    intro b h1 h2
    cases b with
    | nil => simp [jsLt] at h2
    | cons y ys =>
      simp only [jsLt] at h1 h2
      by_cases hxy : x.toNat < y.toNat
      · simp [hxy] at h1
      · by_cases hyx : y.toNat < x.toNat
        · simp [hyx] at h2
        · have hx : x = y :=
            char_eq_of_toNat_eq
              (Nat.le_antisymm (Nat.le_of_not_lt hyx) (Nat.le_of_not_lt hxy))
          simp only [hxy, hyx, if_false] at h1 h2
          rw [hx, ih ys h1 h2]

theorem jsLt_trans : ∀ a b c : RevId, jsLt a b = true → jsLt b c = true →
    jsLt a c = true := by
  intro a
  induction a with
  | nil =>
    intro b c h1 h2
    cases b with
    | nil => simp [jsLt] at h1
    | cons y ys =>
      cases c with
      | nil => simp [jsLt] at h2
      | cons z zs => simp [jsLt]
  | cons x xs ih =>
    intro b c h1 h2
    cases b with
    | nil => simp [jsLt] at h1
    | cons y ys =>
      cases c with
      | nil => simp [jsLt] at h2
      | cons z zs =>
        simp only [jsLt] at h1 h2 ⊢
        by_cases hxy : x.toNat < y.toNat
        · by_cases hyz : y.toNat < z.toNat
          · simp [Nat.lt_trans hxy hyz]
          · by_cases hzy : z.toNat < y.toNat
            · simp [hyz, hzy] at h2
            · have hyzeq : y = z :=
                char_eq_of_toNat_eq
                  (Nat.le_antisymm (Nat.le_of_not_lt hzy) (Nat.le_of_not_lt hyz))
              subst hyzeq
              simp [hxy]
        · by_cases hyx : y.toNat < x.toNat
          · simp [hxy, hyx] at h1
          · have hxyeq : x = y :=
              char_eq_of_toNat_eq
                (Nat.le_antisymm (Nat.le_of_not_lt hyx) (Nat.le_of_not_lt hxy))
            subst hxyeq
            simp only [hxy, hyx, if_false] at h1
            by_cases hxz : x.toNat < z.toNat
            · simp [hxz]
            · by_cases hzx : z.toNat < x.toNat
              · simp [hxz, hzx] at h2
              · simp only [hxz, hzx, if_false] at h2 ⊢
                exact ih ys zs h1 h2

instance : IsTotal RevId jsLe :=
  ⟨fun a b => by
    cases hba : jsLt b a
    · exact Or.inl hba
    · exact Or.inr (jsLt_asymm b a hba)⟩

instance : IsTrans RevId jsLe :=
  ⟨fun a b c h1 h2 => by
    cases hca : jsLt c a
    · exact hca
    · exfalso
      cases hbc : jsLt b c
      · have hbceq : b = c := jsLt_eq_of_not b c hbc h2
        subst hbceq
        rw [h1] at hca
        cases hca
      · have := jsLt_trans b c a hbc hca
        rw [h1] at this
        cases this⟩

theorem sortRevs_perm (l : List RevId) : (sortRevs l).Perm l :=
  List.perm_insertionSort jsLe l

theorem mem_sortRevs {a : RevId} {l : List RevId} :
    a ∈ sortRevs l ↔ a ∈ l :=
  (sortRevs_perm l).mem_iff

theorem sortRevs_sorted (l : List RevId) : List.Sorted jsLe (sortRevs l) :=
  List.sorted_insertionSort jsLe l

theorem sortRevs_nodup {l : List RevId} (h : l.Nodup) : (sortRevs l).Nodup :=
  ((sortRevs_perm l).nodup_iff).mpr h

/-!
Lemmas about uniq.
-/

theorem mem_uniqAux : ∀ (l seen : List RevId) (x : RevId),
    x ∈ uniqAux seen l ↔ x ∈ l ∧ x ∉ seen := by
  intro l
  induction l with
  | nil => simp [uniqAux]
  | cons a l ih =>
    intro seen x
    simp only [uniqAux]
    cases h : seen.contains a
    · have ha : a ∉ seen := by simpa [List.contains] using h
      rw [if_neg Bool.false_ne_true]
      simp only [List.mem_cons, ih]
      constructor
      · rintro (rfl | ⟨h1, h2⟩)
        · exact ⟨Or.inl rfl, ha⟩
        · exact ⟨Or.inr h1, fun hx => h2 (Or.inr hx)⟩
      · rintro ⟨rfl | h1, h2⟩
        · exact Or.inl rfl
        · by_cases hxa : x = a
          · exact Or.inl hxa
          · refine Or.inr ⟨h1, ?_⟩
            simp [hxa, h2]
    · have ha : a ∈ seen := by simpa [List.contains] using h
      rw [if_pos rfl]
      rw [ih]
      constructor
      · rintro ⟨h1, h2⟩
        exact ⟨List.mem_cons_of_mem _ h1, h2⟩
      · rintro ⟨h1, h2⟩
        rcases List.mem_cons.mp h1 with h1 | h1
        · exact absurd (h1 ▸ ha) h2
        · exact ⟨h1, h2⟩

theorem uniqAux_nodup : ∀ (l seen : List RevId), (uniqAux seen l).Nodup := by
  intro l
  induction l with
  | nil => intro seen; simp [uniqAux]
  | cons a l ih =>
    intro seen
    simp only [uniqAux]
    cases h : seen.contains a
    · rw [if_neg Bool.false_ne_true]
      refine List.Nodup.cons ?_ (ih (a :: seen))
      intro hmem
      exact ((mem_uniqAux l (a :: seen) a).mp hmem).2 (List.mem_cons_self a seen)
    · rw [if_pos rfl]
      exact ih seen

theorem uniq_nodup (l : List RevId) : (uniq l).Nodup := uniqAux_nodup l []

theorem mem_uniq {x : RevId} {l : List RevId} : x ∈ uniq l ↔ x ∈ l := by
  rw [uniq, mem_uniqAux]
  simp

/-!
Lemmas about the JavaScript Map model.
-/

theorem mapHas_cons {α : Type} (q : RevId × α) (m : JsMap α) (k : RevId) :
    mapHas (q :: m) k = (q.1 == k || mapHas m k) := rfl

theorem mapHas_iff_mem_keys {α : Type} (m : JsMap α) (k : RevId) :
    mapHas m k = true ↔ k ∈ mapKeys m := by
  simp only [mapHas, mapKeys, List.any_eq_true, List.mem_map, beq_iff_eq]

theorem mapGet_eq_none {α : Type} (m : JsMap α) (k : RevId)
    (h : mapHas m k = false) : mapGet m k = none := by
  have hall : ∀ p ∈ m, ¬(p.1 == k) = true := by
    intro p hp hb
    have ht : mapHas m k = true := List.any_eq_true.mpr ⟨p, hp, hb⟩
    rw [h] at ht
    cases ht
  simp [mapGet, List.find?_eq_none.mpr hall]

theorem find?_mapSet_update {α : Type} (m : JsMap α) (k : RevId) (v : α) :
    List.find? (fun p => p.1 == k)
        (m.map (fun p => if p.1 == k then (k, v) else p)) =
      if mapHas m k then some (k, v) else none := by
  induction m with
  | nil => simp [mapHas]
  | cons q m ih =>
    by_cases hq : (q.1 == k) = true
    · simp only [List.map_cons, if_pos hq]
      rw [List.find?_cons_of_pos (p := fun (r : RevId × α) => r.1 == k) _ (by simp)]
      rw [if_pos (by rw [mapHas_cons, hq, Bool.true_or])]
    · simp only [List.map_cons, if_neg hq]
      rw [List.find?_cons_of_neg (p := fun (r : RevId × α) => r.1 == k) _ hq, ih]
      have hm : mapHas (q :: m) k = mapHas m k := by
        rw [mapHas_cons]
        rw [Bool.eq_false_iff.mpr hq]
        rfl
      rw [hm]

theorem find?_mapSet_other {α : Type} (m : JsMap α) (k kq : RevId) (v : α)
    (hne : kq ≠ k) :
    List.find? (fun p => p.1 == kq)
        (m.map (fun p => if p.1 == k then (k, v) else p)) =
      List.find? (fun p => p.1 == kq) m := by
  induction m with
  | nil => rfl
  | cons q m ih =>
    by_cases hqq : (q.1 == kq) = true
    · have h1 : q.1 = kq := beq_iff_eq.mp hqq
      have hqk : ¬((q.1 == k) = true) := by
        intro hk
        exact hne (h1 ▸ beq_iff_eq.mp hk)
      simp only [List.map_cons, if_neg hqk]
      rw [List.find?_cons_of_pos (p := fun (r : RevId × α) => r.1 == kq) _ hqq,
        List.find?_cons_of_pos (p := fun (r : RevId × α) => r.1 == kq) _ hqq]
    · by_cases hqk : (q.1 == k) = true
      · simp only [List.map_cons, if_pos hqk]
        have hkkq : ¬(((k, v).1 == kq) = true) := by
          intro hh
          exact hne (beq_iff_eq.mp hh).symm
        rw [List.find?_cons_of_neg (p := fun (r : RevId × α) => r.1 == kq) _ hkkq,
          List.find?_cons_of_neg (p := fun (r : RevId × α) => r.1 == kq) _ hqq]
        exact ih
      · simp only [List.map_cons, if_neg hqk]
        rw [List.find?_cons_of_neg (p := fun (r : RevId × α) => r.1 == kq) _ hqq,
          List.find?_cons_of_neg (p := fun (r : RevId × α) => r.1 == kq) _ hqq]
        exact ih

theorem mapGet_set_self {α : Type} (m : JsMap α) (k : RevId) (v : α) :
    mapGet (mapSet m k v) k = some v := by
  unfold mapSet
  by_cases h : mapHas m k = true
  · rw [if_pos h]
    unfold mapGet
    rw [find?_mapSet_update, if_pos h]
    rfl
  · rw [if_neg h]
    unfold mapGet
    rw [List.find?_append]
    rw [List.find?_eq_none.mpr]
    · simp
    · intro p hp hb
      exact h (List.any_eq_true.mpr ⟨p, hp, hb⟩)

theorem mapGet_set_other {α : Type} (m : JsMap α) (k kq : RevId) (v : α)
    (hne : kq ≠ k) : mapGet (mapSet m k v) kq = mapGet m kq := by
  unfold mapSet
  by_cases h : mapHas m k = true
  · rw [if_pos h]
    unfold mapGet
    rw [find?_mapSet_other m k kq v hne]
  · rw [if_neg h]
    unfold mapGet
    rw [List.find?_append]
    have h2 : List.find? (fun p => p.1 == kq) [(k, v)] = none := by
      rw [List.find?_eq_none]
      intro p hp hb
      rw [List.mem_singleton] at hp
      subst hp
      exact hne (beq_iff_eq.mp hb).symm
    rw [h2]
    cases List.find? (fun p => p.1 == kq) m <;> rfl

theorem mapKeys_set {α : Type} (m : JsMap α) (k : RevId) (v : α) :
    mapKeys (mapSet m k v) =
      if mapHas m k then mapKeys m else mapKeys m ++ [k] := by
  unfold mapSet
  by_cases h : mapHas m k = true
  · rw [if_pos h, if_pos h]
    unfold mapKeys
    rw [List.map_map]
    have hf : ((fun p => p.1) ∘ (fun p => if p.1 == k then (k, v) else p) :
        RevId × α → RevId) = fun p => p.1 := by
      funext p
      by_cases hp : p.1 = k
      · simp [hp]
      · simp [hp]
    rw [hf]
  · rw [if_neg h, if_neg h]
    unfold mapKeys
    rw [List.map_append]
    rfl

theorem mapKeys_set_nodup {α : Type} (m : JsMap α) (k : RevId) (v : α)
    (h : (mapKeys m).Nodup) : (mapKeys (mapSet m k v)).Nodup := by
  rw [mapKeys_set]
  by_cases hh : mapHas m k = true
  · rw [if_pos hh]
    exact h
  · rw [if_neg hh]
    rw [List.nodup_append]
    refine ⟨h, List.nodup_singleton k, ?_⟩
    intro x hx hk
    rw [List.mem_singleton] at hk
    subst hk
    rw [← mapHas_iff_mem_keys] at hx
    rw [hx] at hh
    exact hh rfl

theorem cons_getLast?_or {α : Type} (y : α) (ys : List α) (z : Option α) :
    ((y :: ys).getLast?).or z = (y :: ys).getLast? := by
  have hs : ((y :: ys).getLast?).isSome := by
    rw [List.getLast?_isSome]
    simp
  cases hg : (y :: ys).getLast?
  · rw [hg] at hs
    cases hs
  · rfl

theorem getLast?_or_some {α : Type} (l : List α) (x : α) :
    (l.getLast?).or (some x) = (x :: l).getLast? := by
  cases l with
  | nil => rfl
  | cons y ys =>
    rw [List.getLast?_cons_cons, cons_getLast?_or]

/-!
Lemmas about the index and adjacency passes.
-/

theorem indexNodes_get_aux :
    ∀ (parsed : List MigrationNode) (m : JsMap MigrationNode) (r : RevId),
      mapGet (parsed.foldl (fun acc n => mapSet acc n.revision n) m) r =
        ((parsed.filter (fun n => n.revision == r)).getLast?).or (mapGet m r) := by
  intro parsed
  induction parsed with
  | nil =>
    intro m r
    rfl
  | cons n parsed ih =>
    intro m r
    rw [List.foldl_cons, ih]
    by_cases h : (n.revision == r) = true
    · rw [List.filter_cons_of_pos (p := fun (x : MigrationNode) => x.revision == r) h]
      have hrev : n.revision = r := beq_iff_eq.mp h
      have hg : mapGet (mapSet m n.revision n) r = some n := by
        rw [hrev]
        exact mapGet_set_self m r n
      rw [hg, getLast?_or_some, cons_getLast?_or]
    · rw [List.filter_cons_of_neg (p := fun (x : MigrationNode) => x.revision == r) h]
      have hne : r ≠ n.revision := by
        intro he
        exact h (beq_iff_eq.mpr he.symm)
      rw [mapGet_set_other m n.revision r n hne]

theorem indexNodes_get (parsed : List MigrationNode) (r : RevId) :
    mapGet (indexNodes parsed) r =
      (parsed.filter (fun n => n.revision == r)).getLast? := by
  rw [indexNodes, indexNodes_get_aux]
  cases (parsed.filter (fun n => n.revision == r)).getLast? <;> rfl

theorem indexNodes_keys_nodup_aux :
    ∀ (parsed : List MigrationNode) (m : JsMap MigrationNode),
      (mapKeys m).Nodup →
        (mapKeys (parsed.foldl (fun acc n => mapSet acc n.revision n) m)).Nodup := by
  intro parsed
  induction parsed with
  | nil => intro m h; exact h
  | cons n parsed ih =>
    intro m h
    rw [List.foldl_cons]
    exact ih _ (mapKeys_set_nodup m _ _ h)

theorem indexNodes_keys_nodup (parsed : List MigrationNode) :
    (mapKeys (indexNodes parsed)).Nodup :=
  indexNodes_keys_nodup_aux parsed [] (by simp [mapKeys])

theorem mapGet_cons {α : Type} (q : RevId × α) (m : JsMap α) (k : RevId) :
    mapGet (q :: m) k = if (q.1 == k) = true then some q.2 else mapGet m k := by
  by_cases h : (q.1 == k) = true
  · rw [if_pos h]
    unfold mapGet
    rw [List.find?_cons_of_pos (p := fun (r : RevId × α) => r.1 == k) _ h]
    rfl
  · rw [if_neg h]
    unfold mapGet
    rw [List.find?_cons_of_neg (p := fun (r : RevId × α) => r.1 == k) _ h]

theorem mapGet_sortChildren (m : JsMap (List RevId)) (k : RevId) :
    mapGet (sortChildren m) k =
      (mapGet m k).map (fun v => sortRevs (uniq v)) := by
  induction m with
  | nil => rfl
  | cons q m ih =>
    have ihx : mapGet (List.map (fun p => (p.1, sortRevs (uniq p.2))) m) k =
        (mapGet m k).map (fun v => sortRevs (uniq v)) := by
      simpa [sortChildren] using ih
    unfold sortChildren
    simp only [List.map_cons]
    rw [mapGet_cons, mapGet_cons]
    by_cases h : (q.1 == k) = true
    · simp [h]
    · simp [h, ihx]

/-!
Projections of buildGraph.
-/

theorem buildGraph_nodes (parsed : List MigrationNode) :
    (buildGraph parsed).nodesByRevision = indexNodes parsed := rfl

theorem buildGraph_children (parsed : List MigrationNode) :
    (buildGraph parsed).childrenByParent = sortChildren (rawChildren parsed) := rfl

theorem buildGraph_heads (parsed : List MigrationNode) :
    (buildGraph parsed).heads =
      sortRevs ((mapKeys (indexNodes parsed)).filter
        (fun r => !((referencedAsParent (indexNodes parsed)).contains r))) := rfl

/-!
Claim theorems.
-/

/-- C1 counterexample: on the single node d4 with parent zzz, where zzz has
no node, getGraphData emits the edge (zzz, d4) although zzz is not a key of
nodesById, contradicting the claimed edge soundness of the edge list
returned by getGraphData. -/
theorem c1_edge_soundness_cex :
    (getGraphData (buildGraph
        [⟨"d4".data, ["zzz".data], "d4.py".data, "d4".data⟩])).edges =
      [("zzz".data, "d4".data)] ∧
    mapHas (getGraphData (buildGraph
        [⟨"d4".data, ["zzz".data], "d4.py".data, "d4".data⟩])).nodes
      ("zzz".data) = false := by
  decide

/-- C1 amended: getGraphData emits one edge per (parent, node) pair with no
existence check, and it is the webview edge filter of graphView that drops
edges with a missing endpoint, so every edge kept by that filter has both
endpoints among the keys of the node map. -/
theorem c1_webview_edge_soundness (d : GraphDataResult) (e : RevId × RevId)
    (h : e ∈ webviewEdges d) :
    mapHas d.nodes e.1 = true ∧ mapHas d.nodes e.2 = true := by
  unfold webviewEdges at h
  have h2 := (List.mem_filter.mp h).2
  exact ⟨((Bool.and_eq_true _ _).mp h2).1, ((Bool.and_eq_true _ _).mp h2).2⟩

/-- C1 witness: the filtered edge (a, b) of a two-node graph has both
endpoints present. -/
theorem c1_webview_edge_soundness_witness :
    mapHas (getGraphData (buildGraph
        [⟨"b".data, ["a".data], "b.py".data, "b".data⟩,
         ⟨"a".data, [], "a.py".data, "a".data⟩])).nodes ("a".data) = true ∧
    mapHas (getGraphData (buildGraph
        [⟨"b".data, ["a".data], "b.py".data, "b".data⟩,
         ⟨"a".data, [], "a.py".data, "a".data⟩])).nodes ("b".data) = true :=
  c1_webview_edge_soundness _ ("a".data, "b".data) (by decide)

/-- C2 counterexample: the right-hand side with a repeated quoted token
parses to a duplicated parent list, and the duplicated list is stored
unchanged in nodesById by the index pass. -/
theorem c2_duplicate_parents_cex :
    (parseMigrationFile
        ("revision = 'b'\ndown_revision = ('a', 'a')".data)
        ("b.py".data)).map (fun n => n.downRevisions) =
      some ["a".data, "a".data] ∧
    mapGet (buildGraph
        [⟨"b".data, ["a".data, "a".data], "b.py".data, "b".data⟩]).nodesByRevision
        ("b".data) =
      some ⟨"b".data, ["a".data, "a".data], "b.py".data, "b".data⟩ ∧
    ¬ (["a".data, "a".data] : List RevId).Nodup := by
  decide

/-- C2 amended: neither parsing nor indexing deduplicates a node's own
parent list; the deduplication happens only in the childrenByParent
adjacency lists, whose stored values are always duplicate-free. -/
theorem c2_children_nodup (parsed : List MigrationNode) (k : RevId)
    (l : List RevId)
    (h : mapGet (buildGraph parsed).childrenByParent k = some l) :
    l.Nodup := by
  rw [buildGraph_children, mapGet_sortChildren] at h
  cases hg : mapGet (rawChildren parsed) k with
  | none =>
    rw [hg] at h
    cases h
  | some v =>
    rw [hg] at h
    have h2 : sortRevs (uniq v) = l := by simpa using h
    rw [← h2]
    exact sortRevs_nodup (uniq_nodup v)

/-- C2 witness: the adjacency list stored for parent a of a node that lists
a twice is the duplicate-free list containing only x. -/
theorem c2_children_nodup_witness : (["x".data] : List RevId).Nodup :=
  c2_children_nodup
    [⟨"x".data, ["a".data, "a".data], "x.py".data, "x".data⟩]
    ("a".data) ["x".data] (by decide)

/-- C3 counterexample: the blob containing only the line with an empty
quoted identifier yields a node whose id is the empty string, not null. -/
theorem c3_empty_id_cex :
    (parseMigrationFile ("revision = \"\"".data) ("m.py".data)).map
      (fun n => n.revision) = some [] := by
  decide

/-- C3 amended: the parser returns a node exactly when an identifier line
matches, and the id of the returned node is the string parseRevision
extracts from the captured right-hand side, which can be empty (for example
for an empty quoted literal); a blob with no identifier line yields none. -/
theorem c3_node_iff_identifier_line (content fp : List Char) :
    (parseMigrationFile content fp = none ↔
      findBinding ("revision".data) content = none) ∧
    (∀ n, parseMigrationFile content fp = some n →
      ∃ rhs, findBinding ("revision".data) content = some rhs ∧
        n.revision = parseRevision rhs) := by
  cases h : findBinding ("revision".data) content with
  | none =>
    constructor
    · simp [parseMigrationFile, h]
    · intro n hn
      simp [parseMigrationFile, h] at hn
  | some rhs =>
    constructor
    · simp [parseMigrationFile, h]
    · intro n hn
      simp only [parseMigrationFile, h] at hn
      refine ⟨rhs, rfl, ?_⟩
      rw [← Option.some.inj hn]

/-- C3 witness: a blob with no identifier line yields no node. -/
theorem c3_node_iff_identifier_line_witness :
    parseMigrationFile ("x = 1".data) ("m.py".data) = none :=
  (c3_node_iff_identifier_line ("x = 1".data) ("m.py".data)).1.mpr (by decide)

/-- C4: with the duplicated id x (first with parent a, then overwritten by
a parentless x) plus the parentless node a, the identifier a is a head even
though childrenByParent stores the nonempty child list containing x for a,
because the adjacency pass ran over the overwritten duplicate while heads
were computed from the surviving entries only. -/
theorem c4_overwritten_duplicate_children :
    "a".data ∈ (buildGraph
        [⟨"x".data, ["a".data], "x.py".data, "x".data⟩,
         ⟨"x".data, [], "x.py".data, "x".data⟩,
         ⟨"a".data, [], "a.py".data, "a".data⟩]).heads ∧
    mapGet (buildGraph
        [⟨"x".data, ["a".data], "x.py".data, "x".data⟩,
         ⟨"x".data, [], "x.py".data, "x".data⟩,
         ⟨"a".data, [], "a.py".data, "a".data⟩]).childrenByParent
      ("a".data) = some ["x".data] := by
  decide

/-- C5 counterexample: on the value with two quoted tokens and no brackets,
the code extracts both tokens while the rule list worded by the claim, with
rule 3 restricted to sequence literals, falls through to the empty list. -/
theorem c5_rule_three_cex :
    asArrayDownRevision (some ("'a' 'b'".data)) = ["a".data, "b".data] ∧
    claimParentRules (some ("'a' 'b'".data)) = [] := by
  decide

/-- C5 amended: asArrayDownRevision is the graduated rule pipeline in the
claimed order, first match wins, with rule 3 accepting one or more quoted
tokens anywhere in the normalized value rather than only inside a
parenthesized or bracketed sequence literal. -/
theorem c5_amended_pipeline (raw : Option (List Char)) :
    asArrayDownRevision raw = amendedParentRules raw := by
  cases raw with
  | none => rfl
  | some cs =>
    by_cases he : cs.isEmpty = true
    · simp [asArrayDownRevision, amendedParentRules, he]
    · simp only [asArrayDownRevision, amendedParentRules, if_neg he]
      simp only [applyRules, ruleNoneNull, ruleSingleQuoted, ruleQuotedTokens,
        ruleBareToken]
      by_cases h1 : isNoneNull (normalizeRhs cs) = true
      · simp [h1]
      · simp only [h1, if_neg, Bool.false_eq_true, if_false]
        cases h2 : singleQuoted (normalizeRhs cs) with
        | some mid => simp [h2]
        | none =>
          simp only [h2, Option.map_none]
          cases h3 : extractTokens (normalizeRhs cs) with
          | nil =>
            by_cases h4 : isBareToken (normalizeRhs cs) = true
            · simp [h3, h4]
            · simp [h3, h4]
          | cons t ts => simp [h3]

/-- C6: the graph build and the edge derivation are pure functions of the
parsed node sequence, so equal inputs give identical bases, heads,
missingParents and edge lists, and the three classification lists are
lexicographically sorted. -/
theorem c6_determinism (p q : List MigrationNode) (h : p = q) :
    buildGraph p = buildGraph q ∧
    getGraphData (buildGraph p) = getGraphData (buildGraph q) ∧
    List.Sorted jsLe (buildGraph p).bases ∧
    List.Sorted jsLe (buildGraph p).heads ∧
    List.Sorted jsLe (buildGraph p).missingParents := by
  subst h
  exact ⟨rfl, rfl, sortRevs_sorted _, sortRevs_sorted _, sortRevs_sorted _⟩

/-- C6 witness at a concrete one-node input. -/
theorem c6_determinism_witness :
    buildGraph [⟨"a".data, [], "a.py".data, "a".data⟩] =
      buildGraph [⟨"a".data, [], "a.py".data, "a".data⟩] ∧
    getGraphData (buildGraph [⟨"a".data, [], "a.py".data, "a".data⟩]) =
      getGraphData (buildGraph [⟨"a".data, [], "a.py".data, "a".data⟩]) ∧
    List.Sorted jsLe
      (buildGraph [⟨"a".data, [], "a.py".data, "a".data⟩]).bases ∧
    List.Sorted jsLe
      (buildGraph [⟨"a".data, [], "a.py".data, "a".data⟩]).heads ∧
    List.Sorted jsLe
      (buildGraph [⟨"a".data, [], "a.py".data, "a".data⟩]).missingParents :=
  c6_determinism _ _ rfl

/-- C7: every head is a key of nodesById and is listed as parent by no
stored node, because referencedAsParent is computed from the surviving
nodes. -/
theorem c7_head_correctness (parsed : List MigrationNode) (h : RevId)
    (hh : h ∈ (buildGraph parsed).heads) :
    mapHas (buildGraph parsed).nodesByRevision h = true ∧
    ∀ n ∈ mapValues (buildGraph parsed).nodesByRevision,
      h ∉ n.downRevisions := by
  rw [buildGraph_heads, mem_sortRevs] at hh
  have h2 := List.mem_filter.mp hh
  have hk : h ∈ mapKeys (indexNodes parsed) := h2.1
  have hr : (referencedAsParent (indexNodes parsed)).contains h = false := by
    have := h2.2
    rwa [Bool.not_eq_true'] at this
  constructor
  · rw [buildGraph_nodes]
    exact (mapHas_iff_mem_keys _ _).mpr hk
  · intro n hn hmem
    have hin : h ∈ referencedAsParent (indexNodes parsed) := by
      unfold referencedAsParent
      rw [List.mem_flatMap]
      refine ⟨n, ?_, hmem⟩
      rw [buildGraph_nodes] at hn
      exact hn
    have hc : (referencedAsParent (indexNodes parsed)).contains h = true := by
      simpa [List.contains] using hin
    rw [hr] at hc
    cases hc

/-- C7 witness at a concrete one-node graph whose single node is a head. -/
theorem c7_head_correctness_witness :
    mapHas (buildGraph
        [⟨"a".data, [], "a.py".data, "a".data⟩]).nodesByRevision
      ("a".data) = true ∧
    ∀ n ∈ mapValues (buildGraph
        [⟨"a".data, [], "a.py".data, "a".data⟩]).nodesByRevision,
      "a".data ∉ n.downRevisions :=
  c7_head_correctness _ _ (by decide)

/-- C8: the index pass is last write wins: looking up any revision in
nodesById returns the last input node carrying it, and the stored keys are
duplicate-free, with no error raised (the pass is a total function). -/
theorem c8_last_write_wins (parsed : List MigrationNode) (r : RevId) :
    mapGet (buildGraph parsed).nodesByRevision r =
      (parsed.filter (fun n => n.revision == r)).getLast? ∧
    (mapKeys (buildGraph parsed).nodesByRevision).Nodup := by
  rw [buildGraph_nodes]
  exact ⟨indexNodes_get parsed r, indexNodes_keys_nodup parsed⟩

/-- C9: the parser is a total function that returns none exactly when no
line matches the identifier pattern, and the parent interpretation returns
the empty list whenever none of its rules fires. -/
theorem c9_parser_total :
    (∀ content fp, parseMigrationFile content fp = none ↔
      findBinding ("revision".data) content = none) ∧
    (∀ cs, isNoneNull (normalizeRhs cs) = false →
      singleQuoted (normalizeRhs cs) = none →
      extractTokens (normalizeRhs cs) = [] →
      isBareToken (normalizeRhs cs) = false →
      asArrayDownRevision (some cs) = []) := by
  constructor
  · intro content fp
    cases h : findBinding ("revision".data) content with
    | none => simp [parseMigrationFile, h]
    | some rhs => simp [parseMigrationFile, h]
  · intro cs h1 h2 h3 h4
    by_cases he : cs.isEmpty = true
    · simp [asArrayDownRevision, he]
    · simp [asArrayDownRevision, he, h1, h2, h3, h4]

/-- C9 witness: an empty blob yields no node, and a value matched by no
rule yields the empty parent list. -/
theorem c9_parser_total_witness :
    parseMigrationFile ("".data) ("f.py".data) = none ∧
    asArrayDownRevision (some ("*?".data)) = [] :=
  ⟨(c9_parser_total.1 ("".data) ("f.py".data)).mpr (by decide),
   c9_parser_total.2 ("*?".data) (by decide) (by decide) (by decide)
     (by decide)⟩

/-!
Idempotence analysis of normalizeRhs, part one: a string in normal form is
a fixpoint of every stage of the pipeline.
-/

theorem noLT_tail {c : Char} {l : List Char} (h : noLT (c :: l) = true) :
    noLT l = true := by
  unfold noLT at h ⊢
  rw [List.all_cons] at h
  exact ((Bool.and_eq_true _ _).mp h).2

theorem noTwoWs_tail {c : Char} {l : List Char} (h : noTwoWs (c :: l) = true) :
    noTwoWs l = true := by
  cases l with
  | nil => rfl
  | cons d t =>
    unfold noTwoWs at h
    exact ((Bool.and_eq_true _ _).mp h).2

theorem noWsThenHash_tail {c : Char} {l : List Char}
    (h : noWsThenHash (c :: l) = true) : noWsThenHash l = true := by
  cases l with
  | nil => rfl
  | cons d t =>
    unfold noWsThenHash at h
    exact ((Bool.and_eq_true _ _).mp h).2

theorem wsOnlySpace_tail {c : Char} {l : List Char}
    (h : wsOnlySpace (c :: l) = true) : wsOnlySpace l = true := by
  unfold wsOnlySpace at h ⊢
  rw [List.all_cons] at h
  exact ((Bool.and_eq_true _ _).mp h).2

theorem wsHash_head {l : List Char} (h : wsHash l = true) :
    headIsWs l = true := by
  cases l with
  | nil => cases h
  | cons c rest =>
    unfold wsHash at h
    exact ((Bool.and_eq_true _ _).mp h).1

theorem headNotHash_cons {c : Char} {l : List Char} (h : c ≠ '#') :
    headNotHash (c :: l) = true := by
  unfold headNotHash
  split
  · next heq =>
    cases heq
    exact absurd rfl h
  · rfl

theorem headNotHash_hash {l : List Char} : headNotHash ('#' :: l) = false := rfl

theorem hashToEnd_head {l : List Char} (h : hashToEnd l = true) :
    headNotHash l = false := by
  unfold hashToEnd at h
  split at h
  · rfl
  · cases h

theorem noWsThenHash_head {c : Char} {rest : List Char}
    (h : noWsThenHash (c :: rest) = true) (hc : isWs c = true) :
    headNotHash rest = true := by
  cases rest with
  | nil => rfl
  | cons d t =>
    unfold noWsThenHash at h
    have h1 := ((Bool.and_eq_true _ _).mp h).1
    have hd : (d == '#') = false := by
      cases hdd : (d == '#')
      · rfl
      · rw [hc, hdd] at h1
        simp at h1
    apply headNotHash_cons
    intro he
    subst he
    simp at hd

theorem wsHash_false_of_nf {l : List Char} (h2 : noTwoWs l = true)
    (h3 : noWsThenHash l = true) : wsHash l = false := by
  cases hw : wsHash l
  · rfl
  · exfalso
    cases l with
    | nil => cases hw
    | cons c rest =>
      unfold wsHash at hw
      have hc : isWs c = true := ((Bool.and_eq_true _ _).mp hw).1
      have hrest := ((Bool.and_eq_true _ _).mp hw).2
      rcases (Bool.or_eq_true _ _).mp hrest with hh | hws
      · have hnh := noWsThenHash_head h3 hc
        rw [hashToEnd_head hh] at hnh
        cases hnh
      · cases rest with
        | nil => cases hws
        | cons d t =>
          have hd : isWs d = true := wsHash_head hws
          unfold noTwoWs at h2
          have h21 := ((Bool.and_eq_true _ _).mp h2).1
          rw [hc, hd] at h21
          simp at h21

theorem stripCore_eq_self {l : List Char} (h2 : noTwoWs l = true)
    (h3 : noWsThenHash l = true) : stripCore l = l := by
  induction l with
  | nil => rfl
  | cons c rest ih =>
    unfold stripCore
    rw [wsHash_false_of_nf h2 h3, if_neg Bool.false_ne_true]
    rw [ih (noTwoWs_tail h2) (noWsThenHash_tail h3)]

theorem dropWhile_eq_self_of_headNotWs {l : List Char}
    (h : headNotWs l = true) : l.dropWhile isWs = l := by
  cases l with
  | nil => rfl
  | cons c rest =>
    have hch : isWs c = false := by simpa [headNotWs] using h
    rw [List.dropWhile_cons]
    simp [hch]

theorem lastNotWs_cons {c d : Char} {t : List Char} :
    lastNotWs (c :: d :: t) = lastNotWs (d :: t) := rfl

theorem trimRight_eq_self {l : List Char} (h : lastNotWs l = true) :
    trimRight l = l := by
  induction l with
  | nil => rfl
  | cons c rest ih =>
    cases rest with
    | nil =>
      have hch : isWs c = false := by simpa [lastNotWs] using h
      simp [trimRight, hch]
    | cons d t =>
      have hrest : lastNotWs (d :: t) = true := h
      unfold trimRight
      rw [ih hrest]

theorem trimL_eq_self {l : List Char} (h1 : headNotWs l = true)
    (h6 : lastNotWs l = true) : trimL l = l := by
  unfold trimL
  rw [dropWhile_eq_self_of_headNotWs h1, trimRight_eq_self h6]

theorem collapseAux_true_of_headNotWs {l : List Char}
    (h : headNotWs l = true) : collapseAux true l = collapseAux false l := by
  cases l with
  | nil => rfl
  | cons c rest =>
    have hch : isWs c = false := by simpa [headNotWs] using h
    simp [collapseAux, hch]

theorem collapseAux_false_eq_self : ∀ l : List Char, noTwoWs l = true →
    wsOnlySpace l = true → collapseAux false l = l := by
  intro l
  induction l with
  | nil => intro _ _; rfl
  | cons c rest ih =>
    intro h2 h5
    by_cases hc : isWs c = true
    · have hsp : c = ' ' := by
        have h5h := (List.all_eq_true.mp h5) c (List.mem_cons_self c rest)
        rcases (Bool.or_eq_true _ _).mp h5h with hx | hx
        · rw [hc] at hx
          simp at hx
        · exact beq_iff_eq.mp hx
      have hhead : headNotWs rest = true := by
        cases rest with
        | nil => rfl
        | cons d t =>
          unfold noTwoWs at h2
          have h21 := ((Bool.and_eq_true _ _).mp h2).1
          have hdf : isWs d = false := by
            cases hdd : isWs d
            · rfl
            · rw [hc, hdd] at h21
              simp at h21
          simpa [headNotWs] using hdf
      simp only [collapseAux, hc, if_pos, if_true]
      rw [collapseAux_true_of_headNotWs hhead,
        ih (noTwoWs_tail h2) (wsOnlySpace_tail h5), hsp,
        if_neg Bool.false_ne_true]
    · have hcf : isWs c = false := Bool.eq_false_iff.mpr hc
      simp only [collapseAux, hcf, Bool.false_eq_true, if_false]
      rw [ih (noTwoWs_tail h2) (wsOnlySpace_tail h5)]

theorem normalizeRhs_eq_self {l : List Char} (h : normalForm l = true) :
    normalizeRhs l = l := by
  unfold normalForm at h
  have p1 := (Bool.and_eq_true _ _).mp h
  have h5 : noWsThenHash l = true := p1.2
  have p2 := (Bool.and_eq_true _ _).mp p1.1
  have h4 : wsOnlySpace l = true := p2.2
  have p3 := (Bool.and_eq_true _ _).mp p2.1
  have h3 : noTwoWs l = true := p3.2
  have p4 := (Bool.and_eq_true _ _).mp p3.1
  have h1 : headNotWs l = true := p4.1
  have h6 : lastNotWs l = true := p4.2
  unfold normalizeRhs stripInlineComment
  rw [stripCore_eq_self h3 h5, trimL_eq_self h1 h6]
  unfold collapseWs
  rw [collapseAux_false_eq_self l h3 h4, trimL_eq_self h1 h6]

/-!
Idempotence analysis of normalizeRhs, part two: on LineTerminator-free
input every stage of the pipeline establishes or preserves the normal-form
invariants.
-/

theorem stripCore_all {p : Char → Bool} : ∀ l : List Char,
    l.all p = true → (stripCore l).all p = true := by
  intro l
  induction l with
  | nil => intro h; exact h
  | cons c rest ih =>
    intro h
    rw [List.all_cons] at h
    unfold stripCore
    by_cases hw : wsHash (c :: rest) = true
    · simp [hw]
    · simp only [hw, Bool.false_eq_true, if_false, if_neg]
      rw [List.all_cons]
      exact (Bool.and_eq_true _ _).mpr
        ⟨((Bool.and_eq_true _ _).mp h).1, ih ((Bool.and_eq_true _ _).mp h).2⟩

theorem all_dropWhile {p q : Char → Bool} : ∀ l : List Char,
    l.all p = true → (l.dropWhile q).all p = true := by
  intro l
  induction l with
  | nil => intro h; exact h
  | cons c rest ih =>
    intro h
    rw [List.all_cons] at h
    rw [List.dropWhile_cons]
    by_cases hq : q c = true
    · simp only [hq, if_pos, if_true]
      exact ih ((Bool.and_eq_true _ _).mp h).2
    · simp only [hq, Bool.false_eq_true, if_false, if_neg]
      rw [List.all_cons]
      exact h

theorem all_trimRight {p : Char → Bool} : ∀ l : List Char,
    l.all p = true → (trimRight l).all p = true := by
  intro l
  induction l with
  | nil => intro h; exact h
  | cons c rest ih =>
    intro h
    rw [List.all_cons] at h
    have hc := ((Bool.and_eq_true _ _).mp h).1
    have hrest := ih ((Bool.and_eq_true _ _).mp h).2
    unfold trimRight
    cases ht : trimRight rest with
    | nil =>
      by_cases hwc : isWs c = true
      · simp [hwc]
      · simp [hwc, hc]
    | cons d t =>
      rw [ht] at hrest
      rw [List.all_cons]
      exact (Bool.and_eq_true _ _).mpr ⟨hc, hrest⟩

theorem stripCore_append : ∀ l : List Char, ∃ t, l = stripCore l ++ t := by
  intro l
  induction l with
  | nil => exact ⟨[], rfl⟩
  | cons c rest ih =>
    unfold stripCore
    by_cases hw : wsHash (c :: rest) = true
    · exact ⟨c :: rest, by simp [hw]⟩
    · obtain ⟨t, ht⟩ := ih
      refine ⟨t, ?_⟩
      simp only [hw, Bool.false_eq_true, if_false, if_neg, List.cons_append]
      rw [← ht]

theorem trimRight_append : ∀ l : List Char, ∃ t, l = trimRight l ++ t := by
  intro l
  induction l with
  | nil => exact ⟨[], rfl⟩
  | cons c rest ih =>
    obtain ⟨t, ht⟩ := ih
    unfold trimRight
    cases h : trimRight rest with
    | nil =>
      by_cases hwc : isWs c = true
      · refine ⟨c :: rest, ?_⟩
        simp [hwc]
      · refine ⟨rest, ?_⟩
        simp [hwc]
    | cons d r2 =>
      refine ⟨t, ?_⟩
      rw [h] at ht
      rw [List.cons_append, ← ht]

theorem hashToEnd_append {p t : List Char} (hnl : noLT (p ++ t) = true)
    (h : hashToEnd p = true) : hashToEnd (p ++ t) = true := by
  cases p with
  | nil => cases h
  | cons d q =>
    by_cases hd : d = '#'
    · subst hd
      show hashToEnd ('#' :: (q ++ t)) = true
      have h2 := noLT_tail hnl
      unfold noLT at h2
      exact h2
    · exfalso
      unfold hashToEnd at h
      split at h
      · next heq => exact hd (List.cons.inj heq).1
      · cases h

theorem wsHash_append : ∀ (p t : List Char), noLT (p ++ t) = true →
    wsHash p = true → wsHash (p ++ t) = true := by
  intro p
  induction p with
  | nil => intro t _ h; cases h
  | cons c p ih =>
    intro t hnl h
    rw [List.cons_append] at hnl ⊢
    unfold wsHash at h ⊢
    have hc := ((Bool.and_eq_true _ _).mp h).1
    have hrest := ((Bool.and_eq_true _ _).mp h).2
    refine (Bool.and_eq_true _ _).mpr ⟨hc, ?_⟩
    rcases (Bool.or_eq_true _ _).mp hrest with hh | hws
    · exact (Bool.or_eq_true _ _).mpr
        (Or.inl (hashToEnd_append (noLT_tail hnl) hh))
    · exact (Bool.or_eq_true _ _).mpr (Or.inr (ih t (noLT_tail hnl) hws))

theorem wsHashFree_tail {c : Char} {l : List Char}
    (h : wsHashFree (c :: l) = true) : wsHashFree l = true := by
  unfold wsHashFree at h
  exact ((Bool.and_eq_true _ _).mp h).2

theorem wsHashFree_head {c : Char} {l : List Char}
    (h : wsHashFree (c :: l) = true) : wsHash (c :: l) = false := by
  unfold wsHashFree at h
  have h1 := ((Bool.and_eq_true _ _).mp h).1
  cases hx : wsHash (c :: l)
  · rfl
  · rw [hx] at h1
    cases h1

theorem wsHashFree_stripCore : ∀ l : List Char, noLT l = true →
    wsHashFree (stripCore l) = true := by
  intro l
  induction l with
  | nil => intro _; rfl
  | cons c rest ih =>
    intro hnl
    unfold stripCore
    by_cases hw : wsHash (c :: rest) = true
    · simp [hw, wsHashFree]
    · simp only [hw, Bool.false_eq_true, if_false, if_neg]
      unfold wsHashFree
      refine (Bool.and_eq_true _ _).mpr ⟨?_, ih (noLT_tail hnl)⟩
      cases hx : wsHash (c :: stripCore rest)
      · rfl
      · exfalso
        obtain ⟨t, ht⟩ := stripCore_append rest
        have h2 : wsHash ((c :: stripCore rest) ++ t) = true := by
          apply wsHash_append
          · rw [List.cons_append, ← ht]
            exact hnl
          · exact hx
        rw [List.cons_append, ← ht] at h2
        exact hw h2

theorem wsHashFree_dropWhile {q : Char → Bool} : ∀ l : List Char,
    wsHashFree l = true → wsHashFree (l.dropWhile q) = true := by
  intro l
  induction l with
  | nil => intro h; exact h
  | cons c rest ih =>
    intro h
    rw [List.dropWhile_cons]
    by_cases hq : q c = true
    · simp only [hq, if_pos, if_true]
      exact ih (wsHashFree_tail h)
    · simp only [hq, Bool.false_eq_true, if_false, if_neg]
      exact h

theorem wsHashFree_of_append : ∀ (p t : List Char), noLT (p ++ t) = true →
    wsHashFree (p ++ t) = true → wsHashFree p = true := by
  intro p
  induction p with
  | nil => intro t _ _; rfl
  | cons c p ih =>
    intro t hnl h
    rw [List.cons_append] at hnl h
    have hh := wsHashFree_head h
    have ht := wsHashFree_tail h
    unfold wsHashFree
    refine (Bool.and_eq_true _ _).mpr ⟨?_, ih t (noLT_tail hnl) ht⟩
    cases hx : wsHash (c :: p)
    · rfl
    · exfalso
      have h2 : wsHash ((c :: p) ++ t) = true :=
        wsHash_append (c :: p) t (by rw [List.cons_append]; exact hnl) hx
      rw [List.cons_append] at h2
      rw [hh] at h2
      cases h2

theorem wsHashFree_trimRight {l : List Char} (hnl : noLT l = true)
    (h : wsHashFree l = true) : wsHashFree (trimRight l) = true := by
  obtain ⟨t, ht⟩ := trimRight_append l
  apply wsHashFree_of_append (trimRight l) t
  · rw [← ht]
    exact hnl
  · rw [← ht]
    exact h

theorem collapseAux_cons_ws_true {c : Char} {rest : List Char}
    (h : isWs c = true) :
    collapseAux true (c :: rest) = collapseAux true rest := by
  simp [collapseAux, h]

theorem collapseAux_cons_ws_false {c : Char} {rest : List Char}
    (h : isWs c = true) :
    collapseAux false (c :: rest) = ' ' :: collapseAux true rest := by
  simp [collapseAux, h]

theorem collapseAux_cons_nonws {c : Char} {rest : List Char} {b : Bool}
    (h : isWs c = false) :
    collapseAux b (c :: rest) = c :: collapseAux false rest := by
  cases b <;> simp [collapseAux, h]

theorem wsOnlySpace_cons {c : Char} {X : List Char}
    (h1 : (!(isWs c) || (c == ' ')) = true) (h2 : wsOnlySpace X = true) :
    wsOnlySpace (c :: X) = true := by
  unfold wsOnlySpace at h2 ⊢
  rw [List.all_cons]
  exact (Bool.and_eq_true _ _).mpr ⟨h1, h2⟩

theorem noTwoWs_cons {c : Char} {X : List Char}
    (h1 : isWs c = false ∨ headNotWs X = true) (h2 : noTwoWs X = true) :
    noTwoWs (c :: X) = true := by
  cases X with
  | nil => rfl
  | cons d t =>
    unfold noTwoWs
    refine (Bool.and_eq_true _ _).mpr ⟨?_, h2⟩
    rcases h1 with h1 | h1
    · simp [h1]
    · have hd : isWs d = false := by simpa [headNotWs] using h1
      simp [hd]

theorem noWsThenHash_cons {c : Char} {X : List Char}
    (h1 : isWs c = false ∨ headNotHash X = true)
    (h2 : noWsThenHash X = true) : noWsThenHash (c :: X) = true := by
  cases X with
  | nil => rfl
  | cons d t =>
    unfold noWsThenHash
    refine (Bool.and_eq_true _ _).mpr ⟨?_, h2⟩
    rcases h1 with h1 | h1
    · simp [h1]
    · have hd : (d == '#') = false := by
        cases hdd : (d == '#')
        · rfl
        · exfalso
          have hdx : d = '#' := beq_iff_eq.mp hdd
          subst hdx
          rw [headNotHash_hash] at h1
          cases h1
      simp [hd]

theorem collapse_headNotWs_true : ∀ l : List Char,
    headNotWs (collapseAux true l) = true := by
  intro l
  induction l with
  | nil => rfl
  | cons c rest ih =>
    by_cases hc : isWs c = true
    · rw [collapseAux_cons_ws_true hc]
      exact ih
    · have hcf := Bool.eq_false_iff.mpr hc
      rw [collapseAux_cons_nonws hcf]
      simpa [headNotWs] using hcf

theorem collapse_wsOnlySpace : ∀ (l : List Char) (b : Bool),
    wsOnlySpace (collapseAux b l) = true := by
  intro l
  induction l with
  | nil => intro b; rfl
  | cons c rest ih =>
    intro b
    by_cases hc : isWs c = true
    · cases b
      · rw [collapseAux_cons_ws_false hc]
        exact wsOnlySpace_cons (by decide) (ih true)
      · rw [collapseAux_cons_ws_true hc]
        exact ih true
    · have hcf := Bool.eq_false_iff.mpr hc
      rw [collapseAux_cons_nonws hcf]
      exact wsOnlySpace_cons (by simp [hcf]) (ih false)

theorem collapse_noTwoWs : ∀ (l : List Char) (b : Bool),
    noTwoWs (collapseAux b l) = true := by
  intro l
  induction l with
  | nil => intro b; rfl
  | cons c rest ih =>
    intro b
    by_cases hc : isWs c = true
    · cases b
      · rw [collapseAux_cons_ws_false hc]
        exact noTwoWs_cons (Or.inr (collapse_headNotWs_true rest)) (ih true)
      · rw [collapseAux_cons_ws_true hc]
        exact ih true
    · have hcf := Bool.eq_false_iff.mpr hc
      rw [collapseAux_cons_nonws hcf]
      exact noTwoWs_cons (Or.inl hcf) (ih false)

theorem collapse_head_not_hash : ∀ l : List Char, noLT l = true →
    hashToEnd l = false → wsHash l = false →
    headNotHash (collapseAux true l) = true := by
  intro l
  induction l with
  | nil => intro _ _ _; rfl
  | cons c rest ih =>
    intro hnl hhe hw
    by_cases hc : isWs c = true
    · rw [collapseAux_cons_ws_true hc]
      have hor : (hashToEnd rest || wsHash rest) = false := by
        unfold wsHash at hw
        rw [hc] at hw
        simpa using hw
      have hht : hashToEnd rest = false := by
        cases hx : hashToEnd rest
        · rfl
        · rw [hx] at hor
          simp at hor
      have hwr : wsHash rest = false := by
        cases hx : wsHash rest
        · rfl
        · rw [hx] at hor
          simp at hor
      exact ih (noLT_tail hnl) hht hwr
    · have hcf := Bool.eq_false_iff.mpr hc
      rw [collapseAux_cons_nonws hcf]
      by_cases hch : c = '#'
      · exfalso
        subst hch
        have hTrue : hashToEnd ('#' :: rest) = true := by
          show rest.all (fun c => !(isLineTerm c)) = true
          have h2 := noLT_tail hnl
          unfold noLT at h2
          exact h2
        rw [hTrue] at hhe
        cases hhe
      · exact headNotHash_cons hch

theorem collapse_noWsThenHash : ∀ (l : List Char) (b : Bool),
    noLT l = true → wsHashFree l = true →
    noWsThenHash (collapseAux b l) = true := by
  intro l
  induction l with
  | nil => intro b _ _; rfl
  | cons c rest ih =>
    intro b hnl hf
    by_cases hc : isWs c = true
    · cases b
      · rw [collapseAux_cons_ws_false hc]
        refine noWsThenHash_cons (Or.inr ?_)
          (ih true (noLT_tail hnl) (wsHashFree_tail hf))
        have hw := wsHashFree_head hf
        have hor : (hashToEnd rest || wsHash rest) = false := by
          unfold wsHash at hw
          rw [hc] at hw
          simpa using hw
        have hht : hashToEnd rest = false := by
          cases hx : hashToEnd rest
          · rfl
          · rw [hx] at hor
            simp at hor
        have hwr : wsHash rest = false := by
          cases hx : wsHash rest
          · rfl
          · rw [hx] at hor
            simp at hor
        exact collapse_head_not_hash rest (noLT_tail hnl) hht hwr
      · rw [collapseAux_cons_ws_true hc]
        exact ih true (noLT_tail hnl) (wsHashFree_tail hf)
    · have hcf := Bool.eq_false_iff.mpr hc
      rw [collapseAux_cons_nonws hcf]
      exact noWsThenHash_cons (Or.inl hcf)
        (ih false (noLT_tail hnl) (wsHashFree_tail hf))

theorem noTwoWs_of_append : ∀ (p t : List Char),
    noTwoWs (p ++ t) = true → noTwoWs p = true := by
  intro p
  induction p with
  | nil => intro t _; rfl
  | cons c p ih =>
    intro t h
    cases p with
    | nil => rfl
    | cons d q =>
      rw [List.cons_append, List.cons_append] at h
      unfold noTwoWs at h ⊢
      refine (Bool.and_eq_true _ _).mpr
        ⟨((Bool.and_eq_true _ _).mp h).1, ?_⟩
      have h2 := ((Bool.and_eq_true _ _).mp h).2
      exact ih t (by rw [List.cons_append]; exact h2)

theorem noWsThenHash_of_append : ∀ (p t : List Char),
    noWsThenHash (p ++ t) = true → noWsThenHash p = true := by
  intro p
  induction p with
  | nil => intro t _; rfl
  | cons c p ih =>
    intro t h
    cases p with
    | nil => rfl
    | cons d q =>
      rw [List.cons_append, List.cons_append] at h
      unfold noWsThenHash at h ⊢
      refine (Bool.and_eq_true _ _).mpr
        ⟨((Bool.and_eq_true _ _).mp h).1, ?_⟩
      have h2 := ((Bool.and_eq_true _ _).mp h).2
      exact ih t (by rw [List.cons_append]; exact h2)

theorem noTwoWs_trimRight {l : List Char} (h : noTwoWs l = true) :
    noTwoWs (trimRight l) = true := by
  obtain ⟨t, ht⟩ := trimRight_append l
  exact noTwoWs_of_append _ t (by rw [← ht]; exact h)

theorem noWsThenHash_trimRight {l : List Char} (h : noWsThenHash l = true) :
    noWsThenHash (trimRight l) = true := by
  obtain ⟨t, ht⟩ := trimRight_append l
  exact noWsThenHash_of_append _ t (by rw [← ht]; exact h)

theorem noTwoWs_dropWhile {q : Char → Bool} : ∀ l : List Char,
    noTwoWs l = true → noTwoWs (l.dropWhile q) = true := by
  intro l
  induction l with
  | nil => intro h; exact h
  | cons c rest ih =>
    intro h
    rw [List.dropWhile_cons]
    by_cases hq : q c = true
    · simp only [hq, if_pos, if_true]
      exact ih (noTwoWs_tail h)
    · simp only [hq, Bool.false_eq_true, if_false, if_neg]
      exact h

theorem noWsThenHash_dropWhile {q : Char → Bool} : ∀ l : List Char,
    noWsThenHash l = true → noWsThenHash (l.dropWhile q) = true := by
  intro l
  induction l with
  | nil => intro h; exact h
  | cons c rest ih =>
    intro h
    rw [List.dropWhile_cons]
    by_cases hq : q c = true
    · simp only [hq, if_pos, if_true]
      exact ih (noWsThenHash_tail h)
    · simp only [hq, Bool.false_eq_true, if_false, if_neg]
      exact h

theorem headNotWs_dropWhile : ∀ l : List Char,
    headNotWs (l.dropWhile isWs) = true := by
  intro l
  induction l with
  | nil => rfl
  | cons c rest ih =>
    rw [List.dropWhile_cons]
    by_cases hc : isWs c = true
    · simp only [hc, if_pos, if_true]
      exact ih
    · have hcf := Bool.eq_false_iff.mpr hc
      simp only [hcf, Bool.false_eq_true, if_false, if_neg]
      simpa [headNotWs] using hcf

theorem headNotWs_trimRight {l : List Char} (h : headNotWs l = true) :
    headNotWs (trimRight l) = true := by
  cases l with
  | nil => rfl
  | cons c rest =>
    unfold trimRight
    cases ht : trimRight rest with
    | nil =>
      by_cases hwc : isWs c = true
      · simp [hwc, headNotWs]
      · simp [hwc, headNotWs]
    | cons d r2 =>
      simpa [headNotWs] using h

theorem lastNotWs_trimRight : ∀ l : List Char,
    lastNotWs (trimRight l) = true := by
  intro l
  induction l with
  | nil => rfl
  | cons c rest ih =>
    unfold trimRight
    cases ht : trimRight rest with
    | nil =>
      by_cases hwc : isWs c = true
      · simp [hwc, lastNotWs]
      · simp [hwc, lastNotWs]
    | cons d r2 =>
      rw [ht] at ih
      rw [lastNotWs_cons]
      exact ih

theorem normalForm_mk {l : List Char} (h1 : headNotWs l = true)
    (h6 : lastNotWs l = true) (h2 : noTwoWs l = true)
    (h4 : wsOnlySpace l = true) (h5 : noWsThenHash l = true) :
    normalForm l = true := by
  unfold normalForm
  rw [h1, h6, h2, h4, h5]
  rfl

theorem normalForm_normalizeRhs {l : List Char} (hnl : noLT l = true) :
    normalForm (normalizeRhs l) = true := by
  have hnl1 : noLT (stripCore l) = true := stripCore_all l hnl
  have hf1 : wsHashFree (stripCore l) = true := wsHashFree_stripCore l hnl
  have hnl2 : noLT ((stripCore l).dropWhile isWs) = true :=
    all_dropWhile _ hnl1
  have hf2 : wsHashFree ((stripCore l).dropWhile isWs) = true :=
    wsHashFree_dropWhile _ hf1
  have hnl3 : noLT (trimRight ((stripCore l).dropWhile isWs)) = true :=
    all_trimRight _ hnl2
  have hf3 : wsHashFree (trimRight ((stripCore l).dropWhile isWs)) = true :=
    wsHashFree_trimRight hnl2 hf2
  have hx2 : noTwoWs (collapseAux false
      (trimRight ((stripCore l).dropWhile isWs))) = true :=
    collapse_noTwoWs _ false
  have hx4 : wsOnlySpace (collapseAux false
      (trimRight ((stripCore l).dropWhile isWs))) = true :=
    collapse_wsOnlySpace _ false
  have hx5 : noWsThenHash (collapseAux false
      (trimRight ((stripCore l).dropWhile isWs))) = true :=
    collapse_noWsThenHash _ false hnl3 hf3
  show normalForm (trimRight ((collapseAux false
      (trimRight ((stripCore l).dropWhile isWs))).dropWhile isWs)) = true
  apply normalForm_mk
  · exact headNotWs_trimRight (headNotWs_dropWhile _)
  · exact lastNotWs_trimRight _
  · exact noTwoWs_trimRight (noTwoWs_dropWhile _ hx2)
  · exact all_trimRight _ (all_dropWhile _ hx4)
  · exact noWsThenHash_trimRight (noWsThenHash_dropWhile _ hx5)

/-- C10 counterexample: for the input containing a line terminator between
the hash comment and the rest of the text, the comment survives the first
normalization because the dollar anchor of the comment regex cannot cross
the line terminator, but the whitespace collapse then removes the
terminator, so a second normalization strips the comment and yields a
different string. -/
theorem c10_not_idempotent_cex :
    normalizeRhs (normalizeRhs ("x #y\nz".data)) ≠
      normalizeRhs ("x #y\nz".data) := by
  decide

/-- C10 amended: normalizeRhs is idempotent on every string containing no
LineTerminator character, which covers every right-hand-side value captured
from a single line by the binding patterns. -/
theorem c10_normalize_idempotent (cs : List Char) (h : noLT cs = true) :
    normalizeRhs (normalizeRhs cs) = normalizeRhs cs :=
  normalizeRhs_eq_self (normalForm_normalizeRhs h)

/-- C10 witness at a concrete line-terminator-free string. -/
theorem c10_normalize_idempotent_witness :
    normalizeRhs (normalizeRhs ("  a   b ".data)) =
      normalizeRhs ("  a   b ".data) :=
  c10_normalize_idempotent ("  a   b ".data) (by decide)

end AlembicTree
